import Mathlib

/-!
Verification development for the ACME protocol client core
(`acme/client.py`): a shallow embedding of the request pipeline,
the retry/backoff computations and the polling state machines,
together with theorems settling the specification's claims.

Machine integers are modelled as `Int`/`Nat`; wall-clock instants are
modelled as integer seconds; Python exceptions are modelled as explicit
error values (`Except`/error constructors).
-/

set_option maxHeartbeats 1000000

namespace AcmeClient

/-! ### Retry-After computation (`ClientBase.retry_after`) -/

/-- Outcome of the Python-side parsing of a `Retry-After` header value:
`asInt n` models `int(value)` succeeding with `n`; `asDate naive tz`
models `int` failing and `email.utils.parsedate_tz` returning a tuple
whose first seven fields build (without error) the naive datetime whose
value is `naive` seconds since the Unix epoch, with timezone offset `tz`
seconds (`none` when no zone could be determined); `unparseable` models
both parses failing, and also the case where `datetime.datetime(*when[:7])`
itself raises `ValueError` (both paths fall back to the default). -/
inductive HeaderParse
  | asInt (n : Int)
  | asDate (naive : Int) (tz : Option Int)
  | unparseable
deriving DecidableEq

/-- Smallest value representable by `datetime.datetime` (year 1), in seconds
since the Unix epoch. -/
def pyDatetimeMinSec : Int := -62135596800

/-- Largest value representable by `datetime.datetime` (end of year 9999), in
seconds since the Unix epoch. -/
def pyDatetimeMaxSec : Int := 253402300799

/-- Number of seconds in a day: `datetime.timedelta(x)` means `x` days. -/
def secondsPerDay : Int := 86400

/-- Embedding of `ClientBase.retry_after`.  The header value parse outcome is
given by `header` (`none` when the header is absent, in which case the code
parses `str(default)`, i.e. behaves as `asInt default`).  Faithful to the
source: in the date branch the code computes
`tz_secs = datetime.timedelta(when[-1] if when[-1] else 0)` — the positional
`timedelta` argument is **days** — and returns `datetime(*when[:7]) - tz_secs`,
falling back to the default when that computation leaves the representable
datetime range (`OverflowError`). -/
def retry_after (header : Option HeaderParse) (deflt : Int) (now : Int) : Int :=
  match header with
  | none => now + deflt
  | some (.asInt n) => now + n
  | some (.asDate naive tz) =>
      let off : Int :=
        match tz with
        | none => 0
        | some o => o
      let result := naive - off * secondsPerDay
      if pyDatetimeMinSec ≤ result ∧ result ≤ pyDatetimeMaxSec then result
      else now + deflt
  | some .unparseable => now + deflt

/-- C5: `retry_after` returns `now + N` for an integer header value `N` and
`now + default` when the header is absent or unparseable — but for an
HTTP-date value with a non-zero timezone offset it does not return that
instant adjusted by the offset: `datetime.timedelta(when[-1])` counts the
offset in **days**, so for `Tue, 15 Dec 2015 14:35:00 +0100` (naive value
1450190100, offset 3600 s) it returns a point 3600 days earlier instead of
3600 seconds earlier, about ten years in the past. -/
theorem retry_after_date_offset_bug :
    (∀ n deflt now : Int, retry_after (some (.asInt n)) deflt now = now + n) ∧
    (∀ deflt now : Int, retry_after none deflt now = now + deflt) ∧
    (∀ deflt now : Int,
      retry_after (some .unparseable) deflt now = now + deflt) ∧
    retry_after (some (.asDate 1450190100 (some 3600))) 5 1450000000 =
      1450190100 - 3600 * 86400 ∧
    retry_after (some (.asDate 1450190100 (some 3600))) 5 1450000000 ≠
      1450190100 - 3600 := by
  refine ⟨fun n deflt now => rfl, fun deflt now => rfl,
    fun deflt now => rfl, ?_, ?_⟩ <;> decide

/-! ### Certificate chain fetching (`Client.fetch_chain`) -/

/-- Abstract v1 certificate server for `fetch_chain`: maps a URL to the
certificate served there (abstracted to a `Nat` identity) and the optional
`rel="up"` Link header of the response. -/
def ChainServer : Type := String → Nat × Option String

/-- Loop body of `Client.fetch_chain`: `fuel` is `max_length - len(chain)`,
so the `while uri is not None and len(chain) < max_length` loop exits either
on a missing `up` link (returning the accumulated chain) or with a remaining
URI once the bound is reached (raising `errors.Error`, modelled as `.error`
carrying the unfetched URI). -/
def fetchChainGo (server : ChainServer) :
    Option String → Nat → List Nat → Except String (List Nat)
  | none, _, chain => .ok chain
  | some u, 0, _ => .error u
  | some u, fuel+1, chain =>
      fetchChainGo server (server u).2 fuel (chain ++ [(server u).1])

/-- Embedding of `Client.fetch_chain` (the source default for `max_length`
is 10). -/
def fetch_chain (server : ChainServer) (certChainUri : Option String)
    (maxLength : Nat) : Except String (List Nat) :=
  fetchChainGo server certChainUri maxLength []

/-- The URI reached after following `k` `up` links from `start`
(`none` once a response without an `up` link has been reached). -/
def uriAfter (server : ChainServer) (start : Option String) : Nat → Option String
  | 0 => start
  | k+1 =>
      match uriAfter server start k with
      | none => none
      | some u => (server u).2

theorem uriAfter_none (server : ChainServer) (k : Nat) :
    uriAfter server none k = none := by
  induction k with
  | zero => rfl
  | succ k ih => simp [uriAfter, ih]

theorem uriAfter_some_succ (server : ChainServer) (u : String) (k : Nat) :
    uriAfter server (some u) (k+1) = uriAfter server ((server u).2) k := by
  induction k with
  | zero => rfl
  | succ k ih => rw [uriAfter, ih]; rfl

theorem fetchChainGo_spec (server : ChainServer) :
    ∀ (fuel : Nat) (start : Option String) (acc : List Nat),
    (uriAfter server start fuel = none →
      ∃ ch, fetchChainGo server start fuel acc = .ok ch ∧
        ch.length ≤ acc.length + fuel) ∧
    (∀ u, uriAfter server start fuel = some u →
      fetchChainGo server start fuel acc = .error u) := by
  intro fuel
  induction fuel with
  | zero =>
      intro start acc
      cases start with
      | none =>
          refine ⟨fun _ => ⟨acc, rfl, ?_⟩, fun u h => ?_⟩
          · simp
          · exact absurd h (by simp [uriAfter])
      | some u =>
          refine ⟨fun h => absurd h (by simp [uriAfter]), fun v hv => ?_⟩
          cases hv
          rfl
  | succ fuel ih =>
      intro start acc
      cases start with
      | none =>
          refine ⟨fun _ => ⟨acc, rfl, Nat.le_add_right _ _⟩, fun u hu => ?_⟩
          rw [uriAfter_none] at hu
          cases hu
      | some u =>
          have hstep := uriAfter_some_succ server u fuel
          refine ⟨fun h => ?_, fun v hv => ?_⟩
          · rw [hstep] at h
            obtain ⟨ch, hch, hlen⟩ := (ih ((server u).2) (acc ++ [(server u).1])).1 h
            refine ⟨ch, hch, ?_⟩
            simpa [List.length_append, Nat.add_assoc, Nat.add_comm 1 fuel] using hlen
          · rw [hstep] at hv
            exact (ih ((server u).2) (acc ++ [(server u).1])).2 v hv

/-- C8: `fetch_chain` follows `up` links from `cert_chain_uri`; it returns the
collected chain — of length at most `max_length` — exactly when the link chain
ends (no further `up` link) within the bound, and raises a fatal error
carrying the still-unfetched URI when an `up` link remains after `max_length`
certificates have been fetched.  Being a total Lean function, it terminates on
every server response sequence, including cycles of `up` links. -/
theorem fetch_chain_terminates_bounded (server : ChainServer)
    (start : Option String) (maxLength : Nat) :
    (uriAfter server start maxLength = none →
      ∃ ch, fetch_chain server start maxLength = .ok ch ∧
        ch.length ≤ maxLength) ∧
    (∀ u, uriAfter server start maxLength = some u →
      fetch_chain server start maxLength = .error u) := by
  have h := fetchChainGo_spec server maxLength start []
  exact ⟨fun hn => by simpa [fetch_chain] using h.1 hn,
         fun u hu => by simpa [fetch_chain] using h.2 u hu⟩

/-- Cyclic certificate server: `A`'s response links up to `B`, whose response
links back up to `A`. -/
def cycleServer : ChainServer := fun u =>
  if u = "A" then (0, some "B")
  else if u = "B" then (1, some "A")
  else (2, none)

/-- Witness for C8: on the cyclic server the ten-step `up` chain from `A` is
still unfinished, so `fetch_chain` (with the default bound 10) terminates by
raising the recursion-limit error. -/
theorem fetch_chain_cycle_witness :
    fetch_chain cycleServer (some "A") 10 = .error "A" :=
  (fetch_chain_terminates_bounded cycleServer (some "A") 10).2 "A" (by decide)

/-! ### Transport (`ClientNetwork`)

The nonce pool (a Python `set`) is modelled as a duplicate-free list:
`List.insert` models `set.add` and taking the head models the arbitrary
`set.pop`.  An HTTP response is abstracted to the fields the transport
inspects; the server is a function from the index of the request within a
run to the response it returns.  Python exceptions raised by the transport
are the constructors of `CErr`. -/

/-- Response abstraction: `jobj` is `none` when `response.json()` raises
`ValueError`, and `some c` when the body is JSON, where `c = some code`
when `messages.Error.from_json` succeeds with error code `code`, and
`c = none` when it raises `DeserializationError`.  `nonceDecodes` records
whether base64url-decoding the `Replay-Nonce` value succeeds. -/
structure Resp where
  status : Nat
  location : Option String
  replayNonce : Option String
  nonceDecodes : Bool
  jobj : Option (Option String)
deriving DecidableEq

/-- The `requests` library's `response.ok` is `status_code < 400`. -/
def respOk (r : Resp) : Bool := r.status < 400

/-- Errors raised by the transport: `acmeError` is `messages.Error`
(a problem+json document) with its ACME error code; `typeError` is the
Python `TypeError` from subscripting `None`. -/
inductive CErr
  | conflictError (location : Option String)
  | acmeError (code : String)
  | clientError
  | missingNonce
  | badNonceDecode
  | unexpectedUpdate
  | typeError
deriving DecidableEq

/-- Embedding of `ClientNetwork._check_response`.  `expectJson` is whether
the caller's `content_type` argument equals `application/json` (the only
use the source makes of it besides logging). -/
def checkResponse (expectJson : Bool) (r : Resp) : Except CErr Resp :=
  if r.status = 409 then .error (.conflictError r.location)
  else if respOk r = false then
    match r.jobj with
    | some (some code) => .error (.acmeError code)
    | some none => .error .clientError
    | none => .error .clientError
  else if expectJson && r.jobj.isNone then .error .clientError
  else .ok r

/-- Embedding of `ClientNetwork._add_nonce`: the `Replay-Nonce` header, when
present and decodable, is added to the pool; a missing header raises
`MissingNonce` and an undecodable one raises `BadNonce`. -/
def addNonce (r : Resp) (pool : List String) : Except CErr (List String) :=
  match r.replayNonce with
  | some nce => if r.nonceDecodes then .ok (pool.insert nce) else .error .badNonceDecode
  | none => .error .missingNonce

/-- Embedding of `ClientNetwork.get`: sends the GET and checks the response.
The source's `get` never touches the nonce pool, so the pool is returned
unchanged. -/
def getModel (pool : List String) (r : Resp) (expectJson : Bool) :
    List String × Except CErr Resp :=
  (pool, checkResponse expectJson r)

/-- Requests visible in a transport trace: `head url` is the nonce-priming
HEAD request, `post url nonce` is a signed POST whose JWS carries `nonce`. -/
inductive Req
  | head (url : String)
  | post (url : String) (nonce : String)
deriving DecidableEq

/-- Per-run server: response to the `n`-th request of the run. -/
def Server : Type := Nat → Resp

/-- Transport state: the nonce pool and the trace of requests sent so far. -/
structure NetSt where
  pool : List String
  trace : List Req
deriving DecidableEq

/-- Sending one request: the server answers by position in the trace. -/
def send (server : Server) (q : Req) (s : NetSt) : Resp × NetSt :=
  (server s.trace.length, ⟨s.pool, s.trace ++ [q]⟩)

/-- Header fields of a JWS protected header, with their values. -/
inductive HeaderField
  | alg
  | nonce (value : String)
  | url (value : String)
  | kid (value : String)
  | jwk
deriving DecidableEq

/-- Modelled from the spec: `jws.JWS.sign` (module `acme/jws.py`, which is
not under `src/`).  Per the spec, the signer produces a flattened JWS whose
protected header is `alg`/`nonce` plus the `url` when one is supplied, and
identifies the key by `kid` when an account URI is supplied, else (v2, i.e.
when a `url` is present) by embedding the public `jwk`; it never emits both
`kid` and `jwk`. -/
def jwsSignHeaders (nce : String) (url kid : Option String) : List HeaderField :=
  [.alg, .nonce nce] ++
  (match url with
   | some u => [.url u]
   | none => []) ++
  (match kid with
   | some k => [.kid k]
   | none =>
       match url with
       | some _ => [.jwk]
       | none => [])

/-- Embedding of `ClientNetwork._wrap_in_jws` (header construction).  For
`acme_version == 2` the source unconditionally sets
`kwargs["kid"] = self.account["uri"]`; when no account is bound
(`self.account is None`) this subscript raises `TypeError`, modelled as
`.error .typeError`. -/
def wrapInJws (acmeVersion : Nat) (account : Option String) (nce url : String) :
    Except CErr (List HeaderField) :=
  if acmeVersion = 2 then
    match account with
    | none => .error .typeError
    | some uri => .ok (jwsSignHeaders nce (some url) (some uri))
  else .ok (jwsSignHeaders nce none none)

/-- Embedding of `ClientNetwork._get_nonce`: when the pool is empty, a HEAD
request is first sent to `url` — the very URL about to be POSTed to — and
its `Replay-Nonce` added; then one nonce is popped from the pool.  The pop
of an empty pool (unreachable after a successful add) is `.error
.clientError`. -/
def getNonce (server : Server) (url : String) (s : NetSt) :
    NetSt × Except CErr String :=
  let primed : NetSt × Option CErr :=
    if s.pool.isEmpty then
      let (r, s1) := send server (.head url) s
      match addNonce r s1.pool with
      | .error e => (s1, some e)
      | .ok pool1 => (⟨pool1, s1.trace⟩, none)
    else (s, none)
  match primed with
  | (s', some e) => (s', .error e)
  | (s', none) =>
      match s'.pool with
      | [] => (s', .error .clientError)
      | n0 :: rest => (⟨rest, s'.trace⟩, .ok n0)

/-- Embedding of `ClientNetwork._post_once`: drain a nonce, sign (which can
raise before anything is sent), send the POST, add the response's nonce
(raising `MissingNonce` when absent), then check the response.  State
mutations made before an exception persist, so the state is returned in all
cases. -/
def postOnce (server : Server) (url : String) (acmeVersion : Nat)
    (account : Option String) (expectJson : Bool) (s : NetSt) :
    NetSt × Except CErr Resp :=
  let (s1, nr) := getNonce server url s
  match nr with
  | .error e => (s1, .error e)
  | .ok nce =>
      match wrapInJws acmeVersion account nce url with
      | .error e => (s1, .error e)
      | .ok _ =>
          let (r, s2) := send server (.post url nce) s1
          match addNonce r s2.pool with
          | .error e => (s2, .error e)
          | .ok pool2 => (⟨pool2, s2.trace⟩, checkResponse expectJson r)

/-- Embedding of `ClientNetwork.post`: one attempt via `_post_once`; only a
`messages.Error` whose code is `badNonce` triggers a single retry, whose
outcome — success or failure of any kind — is returned as is. -/
def postModel (server : Server) (url : String) (acmeVersion : Nat)
    (account : Option String) (expectJson : Bool) (s : NetSt) :
    NetSt × Except CErr Resp :=
  let (s1, r1) := postOnce server url acmeVersion account expectJson s
  match r1 with
  | .ok r => (s1, .ok r)
  | .error e =>
      match e with
      | .acmeError code =>
          if code = "badNonce" then postOnce server url acmeVersion account expectJson s1
          else (s1, .error e)
      | _ => (s1, .error e)

/-- Embedding of `ClientBase.poll` composed with
`ClientBase._authzr_from_response`: a GET of the authorization URI, then the
response body is parsed (its identifier abstracted as `bodyIdent`) and the
resource URI taken from the `Location` header with `uri` as fallback; when the
caller supplied the originally-requested identifier (`expected`) and the body's
identifier differs, `UnexpectedUpdate` is raised.  The value on success is the
updated resource, abstracted to its (uri, identifier) pair. -/
def pollModel (pool : List String) (r : Resp) (bodyIdent : String)
    (expected : String) (uri : String) :
    List String × Except CErr (String × String) :=
  let (pool1, gr) := getModel pool r true
  match gr with
  | .error e => (pool1, .error e)
  | .ok rr =>
      let authzrUri := rr.location.getD uri
      if bodyIdent ≠ expected then (pool1, .error .unexpectedUpdate)
      else (pool1, .ok (authzrUri, bodyIdent))

/-- C1: for a v2 signed POST with a bound account URI the produced protected
header is exactly alg, nonce, url, kid (no jwk); but when no account URI is
bound (the initial new-account request) the source does not produce an
alg, nonce, url, jwk header: `self.account["uri"]` with `self.account = None`
raises `TypeError`.  For v1 the header is alg, nonce. -/
theorem wrap_in_jws_v2_headers :
    (∀ nce url uri, wrapInJws 2 (some uri) nce url =
        .ok [.alg, .nonce nce, .url url, .kid uri] ∧
      HeaderField.jwk ∉ [HeaderField.alg, .nonce nce, .url url, .kid uri]) ∧
    (∀ nce url, wrapInJws 2 none nce url = .error .typeError) ∧
    (∀ nce url acct, wrapInJws 1 acct nce url = .ok [.alg, .nonce nce]) := by
  refine ⟨fun nce url uri => ⟨rfl, by simp⟩, fun nce url => rfl,
    fun nce url acct => rfl⟩

/-- C2: `post` retries `_post_once` exactly once when — and only when — the
first attempt raises a `messages.Error` with code `badNonce`; the retry's own
outcome (success or any error) is returned unchanged, and every first-attempt
error other than `badNonce` propagates without a retry. -/
theorem post_badNonce_retry (server : Server) (url : String) (v : Nat)
    (acct : Option String) (ej : Bool) (s : NetSt) :
    (∀ r, (postOnce server url v acct ej s).2 = .ok r →
      postModel server url v acct ej s =
        ((postOnce server url v acct ej s).1, .ok r)) ∧
    ((postOnce server url v acct ej s).2 = .error (.acmeError "badNonce") →
      postModel server url v acct ej s =
        postOnce server url v acct ej (postOnce server url v acct ej s).1) ∧
    (∀ e, (postOnce server url v acct ej s).2 = .error e →
      e ≠ .acmeError "badNonce" →
      postModel server url v acct ej s =
        ((postOnce server url v acct ej s).1, .error e)) := by
  rcases hp : postOnce server url v acct ej s with ⟨s1, r1⟩
  refine ⟨fun r hr => ?_, fun hbn => ?_, fun e he hne => ?_⟩
  · have hr1 : r1 = Except.ok r := hr
    simp [postModel, hp, hr1]
  · have hr1 : r1 = Except.error (.acmeError "badNonce") := hbn
    simp [postModel, hp, hr1]
  · have hr1 : r1 = Except.error e := he
    subst hr1
    cases e with
    | acmeError code =>
        have hcode : ¬(code = "badNonce") := by
          intro h
          exact hne (by rw [h])
        simp [postModel, hp, hcode]
    | conflictError loc => simp [postModel, hp]
    | clientError => simp [postModel, hp]
    | missingNonce => simp [postModel, hp]
    | badNonceDecode => simp [postModel, hp]
    | unexpectedUpdate => simp [postModel, hp]
    | typeError => simp [postModel, hp]

/-- HEAD response handing out nonce `n0`. -/
def headNonceResp : Resp := ⟨200, none, some "n0", true, none⟩

/-- Failing POST response: a problem+json body with code `badNonce`, carrying
a fresh `Replay-Nonce` `n1`. -/
def badNonceResp : Resp := ⟨400, none, some "n1", true, some (some "badNonce")⟩

/-- Successful POST response carrying `Replay-Nonce` `n2`. -/
def okResp : Resp := ⟨200, none, some "n2", true, some none⟩

/-- Server that rejects the first POST with `badNonce` and accepts the
second. -/
def retryServer : Server := fun k =>
  if k = 0 then headNonceResp else if k = 1 then badNonceResp else okResp

/-- The transport state at the start of a run: empty pool, empty trace. -/
def emptySt : NetSt := ⟨[], []⟩

/-- Witness for C2: against `retryServer` the first attempt fails with
`badNonce` and `post` returns the outcome of exactly one further
`_post_once`. -/
theorem post_badNonce_retry_witness :
    (postOnce retryServer "https://ca.example/acme/acct" 2
        (some "https://ca.example/acct/1") false emptySt).2 =
      .error (.acmeError "badNonce") ∧
    postModel retryServer "https://ca.example/acme/acct" 2
        (some "https://ca.example/acct/1") false emptySt =
      postOnce retryServer "https://ca.example/acme/acct" 2
        (some "https://ca.example/acct/1") false
        (postOnce retryServer "https://ca.example/acme/acct" 2
          (some "https://ca.example/acct/1") false emptySt).1 :=
  ⟨rfl,
   (post_badNonce_retry retryServer "https://ca.example/acme/acct" 2
      (some "https://ca.example/acct/1") false emptySt).2.1 rfl⟩

/-- URL of the v2 new-account resource in the counterexample run. -/
def newAcctUrl : String := "https://ca.example/acme/new-acct"

/-- URL the directory advertises as `newNonce` in the counterexample run. -/
def newNonceUrl : String := "https://ca.example/acme/new-nonce"

/-- Counterexample for C6: with an empty pool, the fresh-nonce fetch of a v2
POST is a HEAD request to the POST target URL itself; no request ever goes to
the directory's `newNonce` endpoint. -/
theorem get_nonce_target_counterexample :
    emptySt.pool = [] ∧
    (postOnce retryServer newAcctUrl 2 (some "kid1") false emptySt).1.trace =
      [.head newAcctUrl, .post newAcctUrl "n0"] ∧
    Req.head newNonceUrl ∉
      (postOnce retryServer newAcctUrl 2 (some "kid1") false emptySt).1.trace ∧
    newAcctUrl ≠ newNonceUrl := by
  decide

/-- C6 (amended): when the pool is empty at the start of a POST, `_post_once`
first sends a HEAD request to the target URL itself (for every protocol
version), pools that response's `Replay-Nonce`, drains exactly that one nonce
to sign with, and after sending the POST adds the POST response's
`Replay-Nonce` to the pool. -/
theorem post_once_empty_pool_spec (server : Server) (url : String) (v : Nat)
    (acct : Option String) (ej : Bool) (s : NetSt) (n0 n1 : String)
    (hdrs : List HeaderField)
    (hpool : s.pool = [])
    (h0n : (server s.trace.length).replayNonce = some n0)
    (h0d : (server s.trace.length).nonceDecodes = true)
    (hw : wrapInJws v acct n0 url = .ok hdrs)
    (h1n : (server (s.trace.length + 1)).replayNonce = some n1)
    (h1d : (server (s.trace.length + 1)).nonceDecodes = true) :
    postOnce server url v acct ej s =
      (⟨[n1], s.trace ++ [.head url, .post url n0]⟩,
       checkResponse ej (server (s.trace.length + 1))) := by
  simp [postOnce, getNonce, send, addNonce, hpool, h0n, h0d, hw, h1n, h1d,
    List.insert]

/-- Witness for C6 (amended): the concrete run against `retryServer` — HEAD
to the target URL yields `n0`, the POST signs with `n0`, and the POST
response's nonce `n1` ends up in the pool. -/
theorem post_once_empty_pool_witness :
    emptySt.pool = [] ∧
    (retryServer emptySt.trace.length).replayNonce = some "n0" ∧
    wrapInJws 2 (some "kid1") "n0" newAcctUrl =
      .ok (jwsSignHeaders "n0" (some newAcctUrl) (some "kid1")) ∧
    (retryServer (emptySt.trace.length + 1)).replayNonce = some "n1" ∧
    postOnce retryServer newAcctUrl 2 (some "kid1") false emptySt =
      (⟨["n1"], emptySt.trace ++ [.head newAcctUrl, .post newAcctUrl "n0"]⟩,
       checkResponse false (retryServer (emptySt.trace.length + 1))) :=
  ⟨rfl, rfl, rfl, rfl,
   post_once_empty_pool_spec retryServer newAcctUrl 2 (some "kid1") false
     emptySt "n0" "n1" (jwsSignHeaders "n0" (some newAcctUrl) (some "kid1"))
     rfl rfl rfl rfl rfl rfl⟩

/-- Successful GET response carrying a `Replay-Nonce`. -/
def nonceGetResp : Resp := ⟨200, none, some "g0", true, some none⟩

/-- Counterexample for C7: a GET response carries a decodable `Replay-Nonce`,
yet `get` leaves the pool unchanged — the nonce is not added. -/
theorem get_nonce_not_added_counterexample :
    nonceGetResp.replayNonce = some "g0" ∧ nonceGetResp.nonceDecodes = true ∧
    (getModel [] nonceGetResp true).1 = [] ∧
    "g0" ∉ (getModel [] nonceGetResp true).1 := by
  decide

/-- C7 (amended): `get` performs the GET and runs `_check_response` on the
result, and never touches the nonce pool — a `Replay-Nonce` header on a GET
response is discarded, whether present or absent. -/
theorem get_spec (pool : List String) (r : Resp) (ej : Bool) :
    (getModel pool r ej).1 = pool ∧
    (r.status = 409 →
      (getModel pool r ej).2 = .error (.conflictError r.location)) ∧
    (r.status ≠ 409 → respOk r = false → ∀ code, r.jobj = some (some code) →
      (getModel pool r ej).2 = .error (.acmeError code)) ∧
    (r.status ≠ 409 → respOk r = true → (ej = false ∨ r.jobj ≠ none) →
      (getModel pool r ej).2 = .ok r) := by
  refine ⟨rfl, fun h409 => ?_, fun h409 hok code hj => ?_, fun h409 hok hj => ?_⟩
  · simp [getModel, checkResponse, h409]
  · simp [getModel, checkResponse, h409, hok, hj]
  · rcases hj with hj | hj
    · subst hj
      simp [getModel, checkResponse, h409, hok]
    · simp only [getModel, checkResponse, h409, hok]
      simp [Option.isNone_iff_eq_none, hj]

/-- Witness for C7 (amended): a successful JSON GET with a nonempty pool —
the pool is returned untouched and the response passes validation. -/
theorem get_spec_witness :
    (getModel ["p0"] nonceGetResp true).1 = ["p0"] ∧
    (getModel ["p0"] nonceGetResp true).2 = .ok nonceGetResp :=
  ⟨(get_spec ["p0"] nonceGetResp true).1,
   (get_spec ["p0"] nonceGetResp true).2.2.2 (by decide) (by decide)
     (Or.inr (by decide))⟩

/-- C9: when the originally-requested identifier is known and the polled
authorization's body carries a different identifier, `poll` raises
`UnexpectedUpdate`; and a poll never mutates the transport state (the nonce
pool) in any case. -/
theorem poll_identifier_mismatch (pool : List String) (r : Resp)
    (bodyIdent expected uri : String) :
    (pollModel pool r bodyIdent expected uri).1 = pool ∧
    (checkResponse true r = .ok r → bodyIdent ≠ expected →
      pollModel pool r bodyIdent expected uri =
        (pool, .error .unexpectedUpdate)) := by
  constructor
  · cases h : checkResponse true r with
    | error e => simp [pollModel, getModel, h]
    | ok rr =>
        by_cases hid : bodyIdent = expected <;>
          simp [pollModel, getModel, h, hid]
  · intro hok hne
    simp [pollModel, getModel, hok, hne]

/-- Witness for C9: server returns an authorization for `evil.example` when
`example.com` was requested — `UnexpectedUpdate`, pool untouched. -/
theorem poll_identifier_mismatch_witness :
    checkResponse true nonceGetResp = .ok nonceGetResp ∧
    ("evil.example" : String) ≠ "example.com" ∧
    pollModel ["p0"] nonceGetResp "evil.example" "example.com"
        "https://ca.example/authz/7" =
      (["p0"], .error .unexpectedUpdate) :=
  ⟨rfl, by decide,
   (poll_identifier_mismatch ["p0"] nonceGetResp "evil.example" "example.com"
      "https://ca.example/authz/7").2 rfl (by decide)⟩

/-! ### v2 authorization polling (`ClientV2.poll_authorizations`)

Wall-clock time is modelled in integer seconds: a GET is instantaneous and
`time.sleep(1)` advances the clock by one.  The server is an oracle giving,
for the authorization at position `i` of `orderr.body.authorizations` and its
`k`-th GET, the authorization body of the response. -/

/-- ACME authorization status values the engine distinguishes. -/
inductive AStatus
  | pending
  | valid
  | invalid
  | processing
deriving DecidableEq

/-- An authorization body as the v2 poller sees it: its status and, for each
of its challenges, whether `chall.error` is non-null. -/
structure AuthzBody where
  status : AStatus
  challErrors : List Bool
deriving DecidableEq

/-- Inner `while datetime.datetime.now() < deadline` loop for one
authorization URL: returns the non-pending response body if one was obtained,
the clock after the loop, and the number of GETs issued. -/
def pollOne (oracleI : Nat → AuthzBody) (deadline : Int) (t : Int) (k : Nat) :
    Option AuthzBody × Int × Nat :=
  if t < deadline then
    let b := oracleI k
    if b.status ≠ .pending then (some b, t, 1)
    else
      let r := pollOne oracleI deadline (t + 1) (k + 1)
      (r.1, r.2.1, r.2.2 + 1)
  else (none, t, 0)
termination_by (deadline - t).toNat
decreasing_by
  simp_wf
  omega

/-- Outer `for url in orderr.body.authorizations` loop: threads the clock
through the per-URL inner loops, collecting the non-pending responses in
order and counting GETs. -/
def pollAuthzGo (oracle : Nat → Nat → AuthzBody) (deadline : Int) :
    List Nat → Int → List (Nat × AuthzBody) × Int × Nat
  | [], t => ([], t, 0)
  | i :: rest, t =>
      let r := pollOne (oracle i) deadline t 0
      let rr := pollAuthzGo oracle deadline rest r.2.1
      let resps :=
        match r.1 with
        | some b => (i, b) :: rr.1
        | none => rr.1
      (resps, rr.2.1, r.2.2 + rr.2.2)

/-- The `failed` list built after collection: every non-valid response is
appended once per challenge whose `error` is non-null (faithful to the
source's nested loop, duplicates included). -/
def failedOf (resps : List (Nat × AuthzBody)) : List (Nat × AuthzBody) :=
  (resps.map (fun p =>
    if p.2.status = .valid then []
    else (p.2.challErrors.filter id).map (fun _ => p))).flatten

/-- Outcome of `ClientV2.poll_authorizations`: `ok responses` models the
returned `orderr.update(authorizations=responses)`. -/
inductive PollAuthzResult
  | timeoutError
  | validationError (failed : List (Nat × AuthzBody))
  | ok (responses : List (Nat × AuthzBody))
deriving DecidableEq

/-- Embedding of `ClientV2.poll_authorizations` for an order whose
authorization URLs are positions `0..numAuthz-1`, started at clock `t0`;
the second component is the total number of GET requests issued. -/
def poll_authorizations (oracle : Nat → Nat → AuthzBody) (numAuthz : Nat)
    (deadline t0 : Int) : PollAuthzResult × Nat :=
  let r := pollAuthzGo oracle deadline (List.range numAuthz) t0
  if r.1.length < numAuthz then (.timeoutError, r.2.2)
  else
    let failed := failedOf r.1
    if failed.length > 0 then (.validationError failed, r.2.2)
    else (.ok r.1, r.2.2)

theorem pollOne_expired (oracleI : Nat → AuthzBody) (deadline t : Int)
    (k : Nat) (h : deadline ≤ t) :
    pollOne oracleI deadline t k = (none, t, 0) := by
  unfold pollOne
  rw [if_neg (by omega)]

theorem pollAuthzGo_expired (oracle : Nat → Nat → AuthzBody) (deadline : Int)
    (l : List Nat) (t : Int) (h : deadline ≤ t) :
    pollAuthzGo oracle deadline l t = ([], t, 0) := by
  induction l with
  | nil => rfl
  | cons i rest ih =>
      simp [pollAuthzGo, pollOne_expired _ _ _ _ h, ih]

/-- C4: whenever the deadline expires with fewer non-pending responses
collected than there are authorization URLs, `poll_authorizations` raises
`TimeoutError`; in particular, called with a deadline not in the future on an
order with at least one (all-pending) authorization URL it raises
`TimeoutError` having issued zero GET requests. -/
theorem poll_authorizations_deadline_timeout (oracle : Nat → Nat → AuthzBody)
    (numAuthz : Nat) (deadline t0 : Int) :
    ((pollAuthzGo oracle deadline (List.range numAuthz) t0).1.length < numAuthz →
      (poll_authorizations oracle numAuthz deadline t0).1 = .timeoutError) ∧
    (deadline ≤ t0 → 1 ≤ numAuthz →
      (∀ i k, (oracle i k).status = .pending) →
      poll_authorizations oracle numAuthz deadline t0 = (.timeoutError, 0)) := by
  constructor
  · intro hlt
    simp [poll_authorizations, hlt]
  · intro hpast hn _hpend
    have hgo := pollAuthzGo_expired oracle deadline (List.range numAuthz) t0 hpast
    simp [poll_authorizations, hgo, hn]
    intro h
    exact absurd h (by omega)

/-- Oracle whose every response is a pending authorization. -/
def pendingOracle : Nat → Nat → AuthzBody := fun _ _ => ⟨.pending, []⟩

/-- Witness for C4: one authorization, deadline equal to the start time —
TimeoutError with zero GETs. -/
theorem poll_authorizations_deadline_timeout_witness :
    (0 : Int) ≤ 0 ∧ 1 ≤ 1 ∧ (∀ i k, (pendingOracle i k).status = .pending) ∧
    poll_authorizations pendingOracle 1 0 0 = (.timeoutError, 0) :=
  ⟨le_refl 0, le_refl 1, fun _ _ => rfl,
   (poll_authorizations_deadline_timeout pendingOracle 1 0 0).2 (le_refl 0)
     (le_refl 1) (fun _ _ => rfl)⟩

/-- C10: on an order with an empty authorizations list,
`poll_authorizations` returns successfully with an empty responses sequence
(`orderr.update(authorizations=[])`), issues no GET request, and raises
neither `TimeoutError` nor `ValidationError` — for every deadline, including
deadlines already in the past, and every server. -/
theorem poll_authorizations_empty_order (oracle : Nat → Nat → AuthzBody)
    (deadline t0 : Int) :
    poll_authorizations oracle 0 deadline t0 = (.ok [], 0) := by
  simp [poll_authorizations, pollAuthzGo, failedOf]

/-! ### v1 polling scheduler (`Client.poll_and_request_issuance`)

The `heapq` priority queue of `(retry_after_time, index, authzr)` triples is
modelled as a list of `(when, index)` keys from which the lexicographically
smallest entry is popped; the `when` values are abstract clock keys (the
third tuple component never participates in comparisons because indices are
unique).  The server is an oracle `o` giving, for the authorization at input
position `i` and its `k`-th poll, the status of the response body and the
clock key computed by `retry_after` from that response.  The `attempts`
counter, `exhausted` set and `updated` mapping are keyed by input position
(the Python dicts are keyed by the original authorization resources, which
are pairwise distinct list entries). -/

/-- Terminal statuses of the v1 poll loop: the source re-pushes unless the
status is in `(STATUS_VALID, STATUS_INVALID)`. -/
def isTerminal : AStatus → Bool
  | .valid => true
  | .invalid => true
  | _ => false

/-- Whether a status equals `STATUS_INVALID` (the post-loop check). -/
def isInvalid : AStatus → Bool
  | .invalid => true
  | _ => false

/-- Lexicographic order on heap keys `(when, index)`, as `heapq` compares
the Python tuples. -/
def keyLe (a b : Nat × Nat) : Bool :=
  a.1 < b.1 || (a.1 = b.1 && a.2 ≤ b.2)

/-- Smallest key of `x :: xs` under `keyLe`. -/
def minKey (x : Nat × Nat) : List (Nat × Nat) → Nat × Nat
  | [] => x
  | y :: ys => if keyLe y x then minKey y ys else minKey x ys

/-- Removal of the first occurrence of a key (Python `heapq` keeps the
remaining entries in the heap). -/
def eraseKey : List (Nat × Nat) → (Nat × Nat) → List (Nat × Nat)
  | [], _ => []
  | x :: xs, m => if x = m then xs else x :: eraseKey xs m

/-- Model of `heapq.heappop`: removes and returns the smallest entry. -/
def popMin : List (Nat × Nat) → Option ((Nat × Nat) × List (Nat × Nat))
  | [] => none
  | x :: xs => some (minKey x xs, eraseKey (x :: xs) (minKey x xs))

/-- State of the `while waiting:` loop of `poll_and_request_issuance`. -/
structure PollSt where
  waiting : List (Nat × Nat)
  attempts : Nat → Nat
  exhausted : List Nat
  updated : Nat → AStatus

/-- Indices present in the priority queue. -/
def wIdx (l : List (Nat × Nat)) : List Nat := l.map Prod.snd

/-- Loop body of `poll_and_request_issuance`, recursing on explicit fuel:
pop the smallest `(when, index)` entry, poll (the oracle provides the
response's status and its `retry_after` key), bump the attempt counter and
the `updated` mapping, then either drop the entry (terminal status),
re-push it with the new key (still below `max_attempts`), or move the
authorization to `exhausted`. -/
def pollLoop (o : Nat → Nat → AStatus × Nat) (maxAtt : Nat) :
    Nat → PollSt → Option PollSt
  | 0, _ => none
  | fuel+1, s =>
      match popMin s.waiting with
      | none => some s
      | some ((_, i), rest) =>
          let a := s.attempts i
          let st := (o i a).1
          let attempts2 : Nat → Nat := fun j => if j = i then a + 1 else s.attempts j
          let updated2 : Nat → AStatus := fun j => if j = i then st else s.updated j
          if isTerminal st then
            pollLoop o maxAtt fuel ⟨rest, attempts2, s.exhausted, updated2⟩
          else if a + 1 < maxAtt then
            pollLoop o maxAtt fuel
              ⟨((o i a).2, i) :: rest, attempts2, s.exhausted, updated2⟩
          else
            pollLoop o maxAtt fuel ⟨rest, attempts2, i :: s.exhausted, updated2⟩

/-- Initial loop state: every input index is queued with the same key
(`datetime.now()`), attempts all zero, `updated` mapping each original
authorization to itself (statuses given by `init`). -/
def initPollSt (init : Nat → AStatus) (n : Nat) : PollSt :=
  ⟨(List.range n).map (fun i => (0, i)), fun _ => 0, [], init⟩

/-- The loop run with enough fuel for the worst case (`n * maxAtt` pops). -/
def runPollLoop (o : Nat → Nat → AStatus × Nat) (init : Nat → AStatus)
    (n maxAtt : Nat) : Option PollSt :=
  pollLoop o maxAtt (n * maxAtt + 1) (initPollSt init n)

/-- Outcome of `poll_and_request_issuance`: either `PollError(exhausted,
updated)` or a call to `request_issuance` with the updated authorizations. -/
inductive V1PollResult
  | pollError (exhausted : List Nat) (updated : List AStatus)
  | issued (updated : List AStatus)

/-- Embedding of `Client.poll_and_request_issuance` (scheduling and error
partitioning; the `request_issuance` call is abstracted as the `issued`
outcome).  `none` models fuel exhaustion and is proved unreachable. -/
def poll_and_request_issuance (o : Nat → Nat → AStatus × Nat)
    (init : Nat → AStatus) (n maxAtt : Nat) : Option V1PollResult :=
  match runPollLoop o init n maxAtt with
  | none => none
  | some s =>
      let upd := (List.range n).map s.updated
      if !s.exhausted.isEmpty || upd.any isInvalid then
        some (.pollError s.exhausted upd)
      else
        some (.issued upd)

theorem minKey_mem (x : Nat × Nat) (xs : List (Nat × Nat)) :
    minKey x xs ∈ x :: xs := by
  induction xs generalizing x with
  | nil => simp [minKey]
  | cons y ys ih =>
      by_cases h : keyLe y x = true
      · simp only [minKey, h, if_true]
        rcases List.mem_cons.mp (ih y) with h3 | h3
        · rw [h3]
          exact List.mem_cons_of_mem _ (List.mem_cons_self _ _)
        · exact List.mem_cons_of_mem _ (List.mem_cons_of_mem _ h3)
      · simp only [minKey, h, if_false]
        rcases List.mem_cons.mp (ih x) with h3 | h3
        · rw [h3]
          exact List.mem_cons_self _ _
        · exact List.mem_cons_of_mem _ (List.mem_cons_of_mem _ h3)

theorem popMin_none {l : List (Nat × Nat)} (h : popMin l = none) : l = [] := by
  cases l with
  | nil => rfl
  | cons x xs => simp [popMin] at h

theorem popMin_some {l : List (Nat × Nat)} {m : Nat × Nat}
    {r : List (Nat × Nat)} (h : popMin l = some (m, r)) :
    m ∈ l ∧ r = eraseKey l m := by
  cases l with
  | nil => cases h
  | cons x xs =>
      simp only [popMin, Option.some.injEq, Prod.mk.injEq] at h
      obtain ⟨h1, h2⟩ := h
      subst h1
      subst h2
      exact ⟨minKey_mem x xs, rfl⟩

theorem perm_cons_eraseKey {l : List (Nat × Nat)} {m : Nat × Nat}
    (hm : m ∈ l) : l.Perm (m :: eraseKey l m) := by
  induction l with
  | nil => cases hm
  | cons x xs ih =>
      by_cases hx : x = m
      · subst hx
        simp [eraseKey]
      · have hm2 : m ∈ xs := by
          rcases List.mem_cons.mp hm with h | h
          · exact absurd h.symm hx
          · exact h
        have step := (ih hm2).cons x
        simp only [eraseKey, if_neg hx]
        exact step.trans (List.Perm.swap m x _)

theorem sum_eraseKey_mem {l : List (Nat × Nat)} {m : Nat × Nat}
    (f : Nat × Nat → Nat) (hm : m ∈ l) :
    (l.map f).sum = f m + ((eraseKey l m).map f).sum := by
  have hp := perm_cons_eraseKey hm
  calc (l.map f).sum = ((m :: eraseKey l m).map f).sum := (hp.map f).sum_eq
  _ = f m + ((eraseKey l m).map f).sum := by simp

theorem eraseKey_sublist (l : List (Nat × Nat)) (m : Nat × Nat) :
    (eraseKey l m).Sublist l := by
  induction l with
  | nil => exact List.Sublist.refl _
  | cons x xs ih =>
      by_cases hx : x = m
      · simp only [eraseKey, if_pos hx]
        exact List.sublist_cons_self _ _
      · simp only [eraseKey, if_neg hx]
        exact ih.cons₂ x

theorem mem_of_mem_eraseKey {l : List (Nat × Nat)} {m q : Nat × Nat}
    (hq : q ∈ eraseKey l m) : q ∈ l :=
  (eraseKey_sublist l m).mem hq

theorem mem_eraseKey_of_ne {l : List (Nat × Nat)} {m q : Nat × Nat}
    (hne : q ≠ m) (hq : q ∈ l) : q ∈ eraseKey l m := by
  induction l with
  | nil => cases hq
  | cons x xs ih =>
      by_cases hx : x = m
      · simp only [eraseKey, if_pos hx]
        rcases List.mem_cons.mp hq with h | h
        · exact absurd (h.trans hx) hne
        · exact h
      · simp only [eraseKey, if_neg hx]
        rcases List.mem_cons.mp hq with h | h
        · exact h ▸ List.mem_cons_self _ _
        · exact List.mem_cons_of_mem _ (ih h)

theorem nodup_idx_eraseKey {l : List (Nat × Nat)} {m : Nat × Nat}
    (hnd : (wIdx l).Nodup) : (wIdx (eraseKey l m)).Nodup :=
  List.Nodup.sublist (List.Sublist.map _ (eraseKey_sublist _ _)) hnd

theorem idx_not_mem_eraseKey {l : List (Nat × Nat)} {m : Nat × Nat}
    (hnd : (wIdx l).Nodup) (hm : m ∈ l) : m.2 ∉ wIdx (eraseKey l m) := by
  have hp := (perm_cons_eraseKey hm).map Prod.snd
  have hnd2 := hp.nodup hnd
  simp only [List.map_cons] at hnd2
  exact (List.nodup_cons.mp hnd2).1

theorem snd_ne_of_mem_eraseKey {l : List (Nat × Nat)} {m q : Nat × Nat}
    (hnd : (wIdx l).Nodup) (hm : m ∈ l) (hq : q ∈ eraseKey l m) :
    q.2 ≠ m.2 := by
  intro h
  exact idx_not_mem_eraseKey hnd hm (h ▸ List.mem_map_of_mem Prod.snd hq)

/-- Remaining polling budget of the queue: each queued entry can still be
popped at most `maxAtt - attempts` times. -/
def measureOf (maxAtt : Nat) (s : PollSt) : Nat :=
  (s.waiting.map (fun p => maxAtt - s.attempts p.2)).sum

/-- Invariant of the `while waiting:` loop: queued entries are in range,
below the attempt bound, and were never seen terminal; indices in the queue
are unique; exhausted entries spent their whole budget without a terminal
status; and every input index is queued, exhausted, or was seen terminal
within the budget. -/
structure PollInv (o : Nat → Nat → AStatus × Nat) (maxAtt n : Nat)
    (s : PollSt) : Prop where
  wlt : ∀ p ∈ s.waiting, p.2 < n
  watt : ∀ p ∈ s.waiting, s.attempts p.2 < maxAtt
  wnont : ∀ p ∈ s.waiting, ∀ k < s.attempts p.2, isTerminal (o p.2 k).1 = false
  nd : (wIdx s.waiting).Nodup
  exlt : ∀ i ∈ s.exhausted, i < n
  exall : ∀ i ∈ s.exhausted, ∀ k < maxAtt, isTerminal (o i k).1 = false
  cover : ∀ i < n, i ∈ wIdx s.waiting ∨ i ∈ s.exhausted ∨
    ∃ k < maxAtt, isTerminal (o i k).1 = true

theorem pollLoop_total (o : Nat → Nat → AStatus × Nat) (maxAtt n : Nat) :
    ∀ fuel s, PollInv o maxAtt n s → measureOf maxAtt s < fuel →
    ∃ s2, pollLoop o maxAtt fuel s = some s2 ∧ s2.waiting = [] ∧
      PollInv o maxAtt n s2 := by
  intro fuel
  induction fuel with
  | zero =>
      intro s _ hlt
      exact absurd hlt (Nat.not_lt_zero _)
  | succ fuel ih =>
      intro s inv hlt
      cases hpop : popMin s.waiting with
      | none =>
          refine ⟨s, ?_, popMin_none hpop, inv⟩
          simp [pollLoop, hpop]
      | some pr =>
          obtain ⟨⟨w, i⟩, rest⟩ := pr
          obtain ⟨hm, hrest⟩ := popMin_some hpop
          have hin : i < n := inv.wlt _ hm
          have ha : s.attempts i < maxAtt := inv.watt _ hm
          have hnont := inv.wnont _ hm
          have hq_mem : ∀ q ∈ rest, q ∈ s.waiting := fun q hq =>
            mem_of_mem_eraseKey (hrest ▸ hq)
          have hq_ne : ∀ q ∈ rest, q.2 ≠ i := fun q hq =>
            snd_ne_of_mem_eraseKey inv.nd hm (hrest ▸ hq)
          have hnd_r : (wIdx rest).Nodup := hrest ▸ nodup_idx_eraseKey inv.nd
          have hnimem : i ∉ wIdx rest := hrest ▸ idx_not_mem_eraseKey inv.nd hm
          have hw_to_rest : ∀ j, j ≠ i → j ∈ wIdx s.waiting → j ∈ wIdx rest := by
            intro j hji hjw
            obtain ⟨q, hq, hq2⟩ := List.mem_map.mp hjw
            have hqne : q ≠ (w, i) := by
              intro h
              exact hji (by rw [← hq2, h])
            exact List.mem_map.mpr ⟨q, hrest ▸ mem_eraseKey_of_ne hqne hq, hq2⟩
          have hsum : measureOf maxAtt s =
              (maxAtt - s.attempts i) +
                (rest.map (fun p => maxAtt - s.attempts p.2)).sum := by
            have := sum_eraseKey_mem (fun p => maxAtt - s.attempts p.2) hm
            simpa [measureOf, hrest] using this
          have hcongr : ∀ b : Nat,
              rest.map (fun p => maxAtt -
                (if p.2 = i then b else s.attempts p.2)) =
              rest.map (fun p => maxAtt - s.attempts p.2) :=
            fun b => List.map_congr_left (fun q hq => by
              rw [if_neg (hq_ne q hq)])
          by_cases hterm : isTerminal (o i (s.attempts i)).1 = true
          · -- terminal status: the entry is dropped
            have hred : pollLoop o maxAtt (fuel+1) s = pollLoop o maxAtt fuel
                ⟨rest,
                 fun j => if j = i then s.attempts i + 1 else s.attempts j,
                 s.exhausted,
                 fun j => if j = i then (o i (s.attempts i)).1
                   else s.updated j⟩ := by
              simp only [pollLoop, hpop]
              simp [hterm]
            have inv2 : PollInv o maxAtt n
                ⟨rest,
                 fun j => if j = i then s.attempts i + 1 else s.attempts j,
                 s.exhausted,
                 fun j => if j = i then (o i (s.attempts i)).1
                   else s.updated j⟩ := by
              refine ⟨?_, ?_, ?_, hnd_r, inv.exlt, inv.exall, ?_⟩
              · exact fun q hq => inv.wlt q (hq_mem q hq)
              · intro q hq
                simp only [if_neg (hq_ne q hq)]
                exact inv.watt q (hq_mem q hq)
              · intro q hq
                simp only [if_neg (hq_ne q hq)]
                exact inv.wnont q (hq_mem q hq)
              · intro j hj
                rcases inv.cover j hj with hw | hx | ht
                · by_cases hji : j = i
                  · subst hji
                    exact Or.inr (Or.inr ⟨s.attempts j, ha, hterm⟩)
                  · exact Or.inl (hw_to_rest j hji hw)
                · exact Or.inr (Or.inl hx)
                · exact Or.inr (Or.inr ht)
            have hms : measureOf maxAtt
                ⟨rest,
                 fun j => if j = i then s.attempts i + 1 else s.attempts j,
                 s.exhausted,
                 fun j => if j = i then (o i (s.attempts i)).1
                   else s.updated j⟩ =
                (rest.map (fun p => maxAtt - s.attempts p.2)).sum := by
              simp only [measureOf]
              rw [hcongr]
            obtain ⟨s2, hs2, hnil, hinv2⟩ := ih _ inv2 (by omega)
            exact ⟨s2, hred ▸ hs2, hnil, hinv2⟩
          · have hterm2 : isTerminal (o i (s.attempts i)).1 = false := by
              simpa using hterm
            by_cases hatt : s.attempts i + 1 < maxAtt
            · -- still pending with budget left: re-push with the new key
              have hred : pollLoop o maxAtt (fuel+1) s = pollLoop o maxAtt fuel
                  ⟨((o i (s.attempts i)).2, i) :: rest,
                   fun j => if j = i then s.attempts i + 1 else s.attempts j,
                   s.exhausted,
                   fun j => if j = i then (o i (s.attempts i)).1
                     else s.updated j⟩ := by
                simp only [pollLoop, hpop]
                simp [hterm2, hatt]
              have inv2 : PollInv o maxAtt n
                  ⟨((o i (s.attempts i)).2, i) :: rest,
                   fun j => if j = i then s.attempts i + 1 else s.attempts j,
                   s.exhausted,
                   fun j => if j = i then (o i (s.attempts i)).1
                     else s.updated j⟩ := by
                refine ⟨?_, ?_, ?_, ?_, inv.exlt, inv.exall, ?_⟩
                · intro q hq
                  rcases List.mem_cons.mp hq with h | h
                  · rw [h]
                    exact hin
                  · exact inv.wlt q (hq_mem q h)
                · intro q hq
                  rcases List.mem_cons.mp hq with h | h
                  · rw [h]
                    simpa using hatt
                  · simp only [if_neg (hq_ne q h)]
                    exact inv.watt q (hq_mem q h)
                · intro q hq
                  rcases List.mem_cons.mp hq with h | h
                  · rw [h]
                    simp only [if_pos rfl]
                    intro k hk
                    rcases Nat.lt_succ_iff_lt_or_eq.mp hk with h2 | h2
                    · exact hnont k h2
                    · rw [h2]
                      exact hterm2
                  · simp only [if_neg (hq_ne q h)]
                    exact inv.wnont q (hq_mem q h)
                · simpa [wIdx] using List.Nodup.cons hnimem hnd_r
                · intro j hj
                  rcases inv.cover j hj with hw | hx | ht
                  · by_cases hji : j = i
                    · subst hji
                      exact Or.inl (by simp [wIdx])
                    · refine Or.inl ?_
                      have := hw_to_rest j hji hw
                      simpa [wIdx] using Or.inr (List.mem_map.mp this)
                  · exact Or.inr (Or.inl hx)
                  · exact Or.inr (Or.inr ht)
              have hms : measureOf maxAtt
                  ⟨((o i (s.attempts i)).2, i) :: rest,
                   fun j => if j = i then s.attempts i + 1 else s.attempts j,
                   s.exhausted,
                   fun j => if j = i then (o i (s.attempts i)).1
                     else s.updated j⟩ =
                  (maxAtt - (s.attempts i + 1)) +
                    (rest.map (fun p => maxAtt - s.attempts p.2)).sum := by
                simp only [measureOf, List.map_cons, List.sum_cons]
                rw [hcongr]
                simp
              obtain ⟨s2, hs2, hnil, hinv2⟩ := ih _ inv2 (by omega)
              exact ⟨s2, hred ▸ hs2, hnil, hinv2⟩
            · -- budget spent without terminal status: move to exhausted
              have hmaxeq : s.attempts i + 1 = maxAtt := by omega
              have hred : pollLoop o maxAtt (fuel+1) s = pollLoop o maxAtt fuel
                  ⟨rest,
                   fun j => if j = i then s.attempts i + 1 else s.attempts j,
                   i :: s.exhausted,
                   fun j => if j = i then (o i (s.attempts i)).1
                     else s.updated j⟩ := by
                simp only [pollLoop, hpop]
                simp [hterm2, hatt]
              have inv2 : PollInv o maxAtt n
                  ⟨rest,
                   fun j => if j = i then s.attempts i + 1 else s.attempts j,
                   i :: s.exhausted,
                   fun j => if j = i then (o i (s.attempts i)).1
                     else s.updated j⟩ := by
                refine ⟨?_, ?_, ?_, hnd_r, ?_, ?_, ?_⟩
                · exact fun q hq => inv.wlt q (hq_mem q hq)
                · intro q hq
                  simp only [if_neg (hq_ne q hq)]
                  exact inv.watt q (hq_mem q hq)
                · intro q hq
                  simp only [if_neg (hq_ne q hq)]
                  exact inv.wnont q (hq_mem q hq)
                · intro j hj
                  rcases List.mem_cons.mp hj with h | h
                  · rw [h]
                    exact hin
                  · exact inv.exlt j h
                · intro j hj
                  rcases List.mem_cons.mp hj with h | h
                  · subst h
                    intro k hk
                    rw [← hmaxeq] at hk
                    rcases Nat.lt_succ_iff_lt_or_eq.mp hk with h2 | h2
                    · exact hnont k h2
                    · rw [h2]
                      exact hterm2
                  · exact inv.exall j h
                · intro j hj
                  rcases inv.cover j hj with hw | hx | ht
                  · by_cases hji : j = i
                    · subst hji
                      exact Or.inr (Or.inl (List.mem_cons_self _ _))
                    · exact Or.inl (hw_to_rest j hji hw)
                  · exact Or.inr (Or.inl (List.mem_cons_of_mem _ hx))
                  · exact Or.inr (Or.inr ht)
              have hms : measureOf maxAtt
                  ⟨rest,
                   fun j => if j = i then s.attempts i + 1 else s.attempts j,
                   i :: s.exhausted,
                   fun j => if j = i then (o i (s.attempts i)).1
                     else s.updated j⟩ =
                  (rest.map (fun p => maxAtt - s.attempts p.2)).sum := by
                simp only [measureOf]
                rw [hcongr]
              obtain ⟨s2, hs2, hnil, hinv2⟩ := ih _ inv2 (by omega)
              exact ⟨s2, hred ▸ hs2, hnil, hinv2⟩

theorem sum_map_const_nat (l : List Nat) (c : Nat) :
    (l.map (fun _ => c)).sum = l.length * c := by
  induction l with
  | nil => simp
  | cons x xs ih =>
      simp only [List.map_cons, List.sum_cons, ih, List.length_cons]
      rw [Nat.succ_mul]
      omega

theorem measure_init (init : Nat → AStatus) (n maxAtt : Nat) :
    measureOf maxAtt (initPollSt init n) = n * maxAtt := by
  simp only [measureOf, initPollSt, List.map_map]
  have hfun : ((fun p : Nat × Nat => maxAtt - (fun _ : Nat => 0) p.2) ∘
      (fun i : Nat => ((0 : Nat), i))) = fun _ : Nat => maxAtt := by
    funext i
    simp
  rw [hfun, sum_map_const_nat, List.length_range]

theorem wIdx_init (n : Nat) :
    wIdx ((List.range n).map (fun i => ((0 : Nat), i))) = List.range n := by
  simp [wIdx, List.map_map, Function.comp]

theorem init_inv (o : Nat → Nat → AStatus × Nat) (maxAtt n : Nat)
    (hmax : 1 ≤ maxAtt) (init : Nat → AStatus) :
    PollInv o maxAtt n (initPollSt init n) := by
  refine ⟨?_, ?_, ?_, ?_, ?_, ?_, ?_⟩
  · intro p hp
    simp only [initPollSt, List.mem_map, List.mem_range] at hp
    obtain ⟨i, hi, rfl⟩ := hp
    exact hi
  · intro p _
    simpa [initPollSt] using hmax
  · intro p _ k hk
    simp only [initPollSt] at hk
    exact absurd hk (Nat.not_lt_zero _)
  · simp only [initPollSt]
    rw [wIdx_init]
    exact List.nodup_range n
  · intro i hi
    simp [initPollSt] at hi
  · intro i hi
    simp [initPollSt] at hi
  · intro i hi
    refine Or.inl ?_
    simp only [initPollSt]
    rw [wIdx_init]
    exact List.mem_range.mpr hi

theorem isInvalid_eq_true {st : AStatus} : isInvalid st = true ↔ st = .invalid := by
  cases st <;> simp [isInvalid]

/-- C3: with `max_attempts ≥ 1` (the source asserts this) the v1 polling
loop terminates in a state with an empty heap; every authorization polled
`max_attempts` times without reaching a terminal status (valid/invalid) —
i.e. whose oracle never answers terminal within the budget — ends in the
`exhausted` set (and only such authorizations do); and the run raises
`PollError` carrying the exhausted set and the updated mapping exactly when
`exhausted` is non-empty or some updated authorization is invalid, calling
`request_issuance` with the updated authorizations otherwise. -/
theorem poll_and_request_issuance_spec (o : Nat → Nat → AStatus × Nat)
    (init : Nat → AStatus) (n maxAtt : Nat) (hmax : 1 ≤ maxAtt) :
    ∃ s, runPollLoop o init n maxAtt = some s ∧
      (∀ i < n, (∀ k < maxAtt, isTerminal (o i k).1 = false) →
        i ∈ s.exhausted) ∧
      (∀ i ∈ s.exhausted, i < n ∧
        ∀ k < maxAtt, isTerminal (o i k).1 = false) ∧
      (s.exhausted ≠ [] ∨ AStatus.invalid ∈ (List.range n).map s.updated →
        poll_and_request_issuance o init n maxAtt =
          some (.pollError s.exhausted ((List.range n).map s.updated))) ∧
      (s.exhausted = [] ∧ AStatus.invalid ∉ (List.range n).map s.updated →
        poll_and_request_issuance o init n maxAtt =
          some (.issued ((List.range n).map s.updated))) := by
  obtain ⟨s, hs, hnil, hinv⟩ := pollLoop_total o maxAtt n (n * maxAtt + 1)
    (initPollSt init n) (init_inv o maxAtt n hmax init)
    (by rw [measure_init]; omega)
  have hrun : runPollLoop o init n maxAtt = some s := hs
  have hmatch : poll_and_request_issuance o init n maxAtt =
      (if !s.exhausted.isEmpty ||
          ((List.range n).map s.updated).any isInvalid then
        some (.pollError s.exhausted ((List.range n).map s.updated))
      else some (.issued ((List.range n).map s.updated))) := by
    simp only [poll_and_request_issuance]
    rw [hrun]
  refine ⟨s, hrun, ?_, ?_, ?_, ?_⟩
  · intro i hi hnt
    rcases hinv.cover i hi with hw | hx | ht
    · rw [hnil] at hw
      simp [wIdx] at hw
    · exact hx
    · obtain ⟨k, hk, hkt⟩ := ht
      rw [hnt k hk] at hkt
      cases hkt
  · exact fun i hi => ⟨hinv.exlt i hi, hinv.exall i hi⟩
  · intro hcond
    have hbool : (!s.exhausted.isEmpty ||
        ((List.range n).map s.updated).any isInvalid) = true := by
      rcases hcond with h | h
      · have hie : s.exhausted.isEmpty = false := by
          cases hx : s.exhausted with
          | nil => exact absurd hx h
          | cons a l => rfl
        simp [hie]
      · have hany : ((List.range n).map s.updated).any isInvalid = true :=
          List.any_eq_true.mpr ⟨.invalid, h, rfl⟩
        simp [hany]
    rw [hmatch, hbool]
    simp
  · rintro ⟨hemp, hninv⟩
    have hbool : (!s.exhausted.isEmpty ||
        ((List.range n).map s.updated).any isInvalid) = false := by
      rw [hemp]
      simp only [List.isEmpty_nil, Bool.not_true, Bool.false_or]
      rw [List.any_eq_false]
      intro st hst hisv
      exact hninv (isInvalid_eq_true.mp hisv ▸ hst)
    rw [hmatch, hbool]
    simp

/-- Oracle whose every poll answers `valid` (retry key 0). -/
def validOracle : Nat → Nat → AStatus × Nat := fun _ _ => (AStatus.valid, 0)

/-- Witness for C3: one authorization, `max_attempts = 1`, server answers
`valid` on the first poll — the loop terminates with nothing exhausted and
issuance is requested with the updated (valid) authorization. -/
theorem poll_and_request_issuance_witness :
    poll_and_request_issuance validOracle (fun _ => AStatus.pending) 1 1 =
      some (.issued [AStatus.valid]) := by
  obtain ⟨s, hrun, _, _, _, hiss⟩ :=
    poll_and_request_issuance_spec validOracle (fun _ => AStatus.pending) 1 1
      (le_refl 1)
  have hconc : runPollLoop validOracle (fun _ => AStatus.pending) 1 1 =
      some ⟨[], fun j => if j = 0 then 1 else 0, [],
        fun j => if j = 0 then AStatus.valid else AStatus.pending⟩ := rfl
  rw [hconc] at hrun
  obtain hs := Option.some.inj hrun
  have hexh : s.exhausted = [] := by rw [← hs]
  have hupd : (List.range 1).map s.updated = [AStatus.valid] := by
    rw [← hs]
    rfl
  have := hiss ⟨hexh, by rw [hupd]; decide⟩
  rw [hupd] at this
  exact this

end AcmeClient
